import Mathlib

/-!
Verification of the Multi-User session server (mu_server.cpp) against its
natural-language specification.  The definitions below are a shallow
embedding of the server source: the per-pass scan of the client vector,
the accept/greeting code, the quit comparison, the cleanup routine, the
fd read-set preparation, and the per-session payload trace.
-/

namespace MuServer

/-- Bytes of the greeting sent at accept time.  The source sends
HELLO with write(fd, "HELLO", sizeof("HELLO")); sizeof of the string
literal counts the trailing zero byte, so 6 bytes go on the wire. -/
def helloBytes : List Nat := [72, 69, 76, 76, 79, 0]

/-- Bytes of the command prompt.  The source sends ENTERCMD with
write(fd, "ENTERCMD", sizeof("ENTERCMD")), i.e. 9 bytes including the
trailing zero byte. -/
def promptBytes : List Nat := [69, 78, 84, 69, 82, 67, 77, 68, 0]

/-- The four bytes of the reserved terminator command quit. -/
def quitBytes : List Nat := [113, 117, 105, 116]

/-- Size of the read buffer: char buffer[100] in main. -/
def bufferSize : Nat := 100

/-- Index written by the statement buffer[bytes] = 0 after a read that
returned bytes bytes. -/
def nulWriteIndex (bytes : Nat) : Nat := bytes

/-- One connected client as stored in the clientSockets vector:
its id (assigned as ++count at accept time) and its socket descriptor. -/
structure Client where
  id : Nat
  socket : Int
deriving DecidableEq, Repr

/-- Outcome of one read(fd, buffer, 100) call on a client socket:
negative return, zero bytes (peer closed), or a payload of bytes. -/
inductive ReadResult where
  | err : ReadResult
  | closed : ReadResult
  | data : List Nat → ReadResult
deriving DecidableEq, Repr

/-- Observable actions of the server: a read() call on the client with a
given id, a write() of a payload to that client, a close() of that
client socket, a close() of the server socket, and unlink() of the
socket file. -/
inductive Act where
  | readC : Nat → Act
  | send : Nat → List Nat → Act
  | closeC : Nat → Act
  | closeServer : Act
  | unlinkFile : Act
deriving DecidableEq, Repr

/-- The C-string contents of a byte buffer: the bytes up to (excluding)
the first zero byte, which is how strcmp interprets the buffer. -/
def cString (l : List Nat) : List Nat := l.takeWhile (fun b => b != 0)

/-- The quit test of the source: after buffer[bytes] = 0, the call
strcmp(buffer, quit-literal) == 0 succeeds exactly when the C-string
contents of the received payload followed by the written zero byte
equal the four terminator bytes. -/
def isQuit (p : List Nat) : Bool := cString (p ++ [0]) == quitBytes

/-- Whether servicing this client in the current pass erases it from the
vector: it is in the ready set and its read returns an error, zero
bytes, or a payload passing the quit test. -/
def removes (ready : Client → Bool) (res : Client → ReadResult) (c : Client) : Bool :=
  ready c && match res c with
    | ReadResult.err => true
    | ReadResult.closed => true
    | ReadResult.data p => isQuit p

/-- Direct embedding of the per-pass client scan of main:
for(int i = 0; i < clientSockets.size(); i++) with FD_ISSET guarding the
read, closeSocket plus erase(begin + i) on error, zero bytes, or quit,
and a prompt write otherwise.  The loop increment always runs, also
right after an erase.  Returns the vector after the pass and the list
of actions performed, in order. -/
def scanFrom (ready : Client → Bool) (res : Client → ReadResult)
    (cs : List Client) (i : Nat) : List Client × List Act :=
  if h : i < cs.length then
    if ready (cs.get ⟨i, h⟩) then
      match res (cs.get ⟨i, h⟩) with
      | ReadResult.err =>
          ((scanFrom ready res (cs.eraseIdx i) (i + 1)).1,
           Act.readC (cs.get ⟨i, h⟩).id :: Act.closeC (cs.get ⟨i, h⟩).id ::
             (scanFrom ready res (cs.eraseIdx i) (i + 1)).2)
      | ReadResult.closed =>
          ((scanFrom ready res (cs.eraseIdx i) (i + 1)).1,
           Act.readC (cs.get ⟨i, h⟩).id :: Act.closeC (cs.get ⟨i, h⟩).id ::
             (scanFrom ready res (cs.eraseIdx i) (i + 1)).2)
      | ReadResult.data p =>
          if isQuit p then
            ((scanFrom ready res (cs.eraseIdx i) (i + 1)).1,
             Act.readC (cs.get ⟨i, h⟩).id :: Act.closeC (cs.get ⟨i, h⟩).id ::
               (scanFrom ready res (cs.eraseIdx i) (i + 1)).2)
          else
            ((scanFrom ready res cs (i + 1)).1,
             Act.readC (cs.get ⟨i, h⟩).id :: Act.send (cs.get ⟨i, h⟩).id promptBytes ::
               (scanFrom ready res cs (i + 1)).2)
    else scanFrom ready res cs (i + 1)
  else (cs, [])
termination_by cs.length - i
decreasing_by
  all_goals first
    | omega
    | (rw [List.length_eraseIdx, if_pos h]; omega)

/-- The client scan of one pass, started at index 0 as in the source. -/
def scanPass (ready : Client → Bool) (res : Client → ReadResult)
    (cs : List Client) : List Client × List Act :=
  scanFrom ready res cs 0

/-- Structural form of the scan, used for the proofs.  Because the
source erases at index i and then still increments i, an erased element
makes the scan skip the element that shifts into its slot; the skipped
element stays in the vector untouched. -/
def scanGo (ready : Client → Bool) (res : Client → ReadResult) :
    List Client → List Client × List Act
  | [] => ([], [])
  | c :: rest =>
    if removes ready res c then
      match rest with
      | [] => ([], [Act.readC c.id, Act.closeC c.id])
      | d :: rest2 =>
          (d :: (scanGo ready res rest2).1,
           Act.readC c.id :: Act.closeC c.id :: (scanGo ready res rest2).2)
    else if ready c then
      (c :: (scanGo ready res rest).1,
       Act.readC c.id :: Act.send c.id promptBytes :: (scanGo ready res rest).2)
    else
      (c :: (scanGo ready res rest).1, (scanGo ready res rest).2)

/-- Direct embedding of cleanup(): close(serverSocket) first, then
closeSocket on every entry still in the clientSockets vector in order,
then unlink(socketFile). -/
def cleanup (cs : List Client) : List Act :=
  Act.closeServer :: (cs.map (fun c => Act.closeC c.id) ++ [Act.unlinkFile])

/-- Embedding of signalHandler(): it clears the signal and calls
exit(EXIT_SUCCESS), upon which the atexit-registered cleanup() runs, so
the signal-driven shutdown path performs exactly the cleanup trace. -/
def signalShutdown (cs : List Client) : List Act := cleanup cs

/-- Result of one accept() call: a connected descriptor, or failure
(accept returns -1, covering both errors and would-block). -/
inductive AcceptResult where
  | conn : Int → AcceptResult
  | err : AcceptResult
deriving DecidableEq, Repr

/-- The descriptor value accept() stored into clientSocket->socket:
the new descriptor on success, -1 on failure. -/
def fdOf : AcceptResult → Int
  | AcceptResult.conn fd => fd
  | AcceptResult.err => -1

/-- What the server records and does after one accept() call.  Both
accept sites of main (the blocking branch and the select-guarded
branch) have the identical body embedded here: allocate the struct,
store the accept return value, assign id = ++count, write the greeting,
push_back onto the vector.  Nothing is checked and nothing is read. -/
structure AcceptOutcome where
  appended : List Client
  acts : List Act
  fatalExit : Bool
deriving DecidableEq, Repr

/-- Embedding of the accept-and-greet code of main (both the
empty-registry blocking site and the multiplexed site, whose bodies are
identical): the new Session gets id count + 1 and socket fdOf r, the
greeting is written, and the Session is appended unconditionally; the
process never exits here. -/
def acceptStep (count : Nat) (r : AcceptResult) : AcceptOutcome :=
  { appended := [⟨count + 1, fdOf r⟩]
    acts := [Act.send (count + 1) helloBytes]
    fatalExit := false }

/-- Embedding of the maxFD computation of prepareFDReadSet: it starts
from 0 and folds over the client sockets only; the server socket is
never compared against the running maximum. -/
def maxFDcalc (clients : List Client) : Int :=
  clients.foldl (fun m c => if c.socket > m then c.socket else m) 0

/-- The read set built by prepareFDReadSet: FD_ZERO, then FD_SET of the
server socket, then FD_SET of every client socket. -/
def readsetOf (serverFD : Int) (clients : List Client) : List Int :=
  serverFD :: clients.map Client.socket

/-- Embedding of prepareFDReadSet: the read set and the returned maxFD. -/
def prepareFDReadSet (serverFD : Int) (clients : List Client) : List Int × Int :=
  (readsetOf serverFD clients, maxFDcalc clients)

/-- The select semantics applied to the call
select(maxFD + 1, readset, ...): a descriptor can be observed and
reported ready only when it is in the read set and strictly below the
nfds argument maxFD + 1. -/
def selectObserves (serverFD : Int) (clients : List Client) (fd : Int) : Bool :=
  (readsetOf serverFD clients).contains fd && fd < maxFDcalc clients + 1

/-- Actions performed for one Session across the passes that service it,
projected from main: each element of rs is what read() returns in one
pass in which the Session is in the ready set.  An error, zero bytes,
or a quit payload closes the socket and ends the Session; any other
payload is answered with the prompt and the Session is read again in a
later pass. -/
def sessionActs (i : Nat) : List ReadResult → List Act
  | [] => []
  | r :: rs =>
    Act.readC i ::
      match r with
      | ReadResult.err => [Act.closeC i]
      | ReadResult.closed => [Act.closeC i]
      | ReadResult.data p =>
          if isQuit p then [Act.closeC i]
          else Act.send i promptBytes :: sessionActs i rs

/-- The full wire trace of one Session of id i: the greeting written at
accept time, followed by the command-loop actions. -/
def sessionTrace (i : Nat) (rs : List ReadResult) : List Act :=
  Act.send i helloBytes :: sessionActs i rs

/-- True when the action is a read() on the client with the given id. -/
def isReadOf (i : Nat) : Act → Bool
  | Act.readC j => j == i
  | _ => false

/-- True when the action is a close() of some client socket. -/
def isCloseClient : Act → Bool
  | Act.closeC _ => true
  | _ => false

/-- True when the action is the close() of the server socket. -/
def isServerClose : Act → Bool
  | Act.closeServer => true
  | _ => false

/-- True when the action is the unlink() of the socket file. -/
def isUnlink : Act → Bool
  | Act.unlinkFile => true
  | _ => false

/-- True when the trace contains a read() call on any client. -/
def hasRecv (l : List Act) : Bool :=
  l.any (fun a => match a with | Act.readC _ => true | _ => false)

/-- Checks a trace for: every read() on client i has, as the action
written immediately before it, a write of the prompt payload to i.
The prev argument carries the preceding action. -/
def readsPromptedAux (i : Nat) (prev : Option Act) : List Act → Bool
  | [] => true
  | a :: rest =>
    (match a with
     | Act.readC j =>
         if j == i then prev == some (Act.send i promptBytes) else true
     | _ => true) && readsPromptedAux i (some a) rest

/-- Every read() on client i in the trace is immediately preceded by a
write of the prompt payload to i. -/
def readsPrompted (i : Nat) (l : List Act) : Bool := readsPromptedAux i none l

/-- Every action satisfying p occurs strictly before every action
satisfying q in the trace: once a q-action is seen, no p-action may
follow it. -/
def allBefore (p q : Act → Bool) : List Act → Bool
  | [] => true
  | a :: rest =>
    if q a then rest.all (fun b => !(p b)) && allBefore p q rest
    else allBefore p q rest

/-- A payload written during the command-loop scan must be the prompt. -/
def sendIsPrompt : Act → Bool
  | Act.send _ p => p == promptBytes
  | _ => true

/-- A payload written anywhere in a Session trace must be the greeting
or the prompt. -/
def sendIsFixed : Act → Bool
  | Act.send _ p => p == helloBytes || p == promptBytes
  | _ => true

/-- Readiness function marking every client as in the ready set. -/
def allReady : Client → Bool := fun _ => true

/-- Concrete read outcomes: client 1 sends the terminator, every other
client sends the two bytes ls. -/
def resQuitThenData : Client → ReadResult := fun c =>
  if c.id = 1 then ReadResult.data quitBytes else ReadResult.data [108, 115]

/-- Concrete read outcome: a five-byte payload, the terminator bytes
followed by an embedded zero byte. -/
def resNulQuit : Client → ReadResult := fun _ =>
  ReadResult.data [113, 117, 105, 116, 0]

/-- Concrete read outcome: every read returns zero bytes. -/
def resAllClosed : Client → ReadResult := fun _ => ReadResult.closed

/-- Concrete read outcome: every read returns the two bytes ls. -/
def resAllData : Client → ReadResult := fun _ => ReadResult.data [108, 115]

theorem scanGo_nil (ready : Client → Bool) (res : Client → ReadResult) :
    scanGo ready res [] = ([], []) := rfl

theorem scanGo_keep (ready : Client → Bool) (res : Client → ReadResult)
    (c : Client) (rest : List Client) (h : ready c = false) :
    scanGo ready res (c :: rest) =
      (c :: (scanGo ready res rest).1, (scanGo ready res rest).2) := by
  have hrem : removes ready res c = false := by simp [removes, h]
  cases rest <;> simp [scanGo, hrem, h]

theorem scanGo_prompt (ready : Client → Bool) (res : Client → ReadResult)
    (c : Client) (rest : List Client) (h : ready c = true)
    (hrem : removes ready res c = false) :
    scanGo ready res (c :: rest) =
      (c :: (scanGo ready res rest).1,
       Act.readC c.id :: Act.send c.id promptBytes :: (scanGo ready res rest).2) := by
  cases rest <;> simp [scanGo, hrem, h]

theorem scanGo_remove_nil (ready : Client → Bool) (res : Client → ReadResult)
    (c : Client) (hrem : removes ready res c = true) :
    scanGo ready res [c] = ([], [Act.readC c.id, Act.closeC c.id]) := by
  simp [scanGo, hrem]

theorem scanGo_remove_cons (ready : Client → Bool) (res : Client → ReadResult)
    (c d : Client) (rest2 : List Client) (hrem : removes ready res c = true) :
    scanGo ready res (c :: d :: rest2) =
      (d :: (scanGo ready res rest2).1,
       Act.readC c.id :: Act.closeC c.id :: (scanGo ready res rest2).2) := by
  simp [scanGo, hrem]

theorem eraseIdx_append_mid {α : Type} (p : List α) (c : α) (l : List α) :
    (p ++ c :: l).eraseIdx p.length = p ++ l := by
  induction p with
  | nil => rfl
  | cons a p ih => simpa [List.eraseIdx] using ih

theorem get_append_mid {α : Type} (p : List α) (c : α) (l : List α)
    (h : p.length < (p ++ c :: l).length) :
    (p ++ c :: l).get ⟨p.length, h⟩ = c := by
  induction p with
  | nil => rfl
  | cons a p ih => simpa using ih (by simp)

theorem listStrongInd {α : Type} {motive : List α → Prop}
    (step : ∀ l : List α, (∀ m : List α, m.length < l.length → motive m) → motive l) :
    ∀ l : List α, motive l := by
  have key : ∀ (n : Nat) (l : List α), l.length ≤ n → motive l := by
    intro n
    induction n with
    | zero =>
      intro l hl
      exact step l (fun m hm => absurd (Nat.lt_of_lt_of_le hm hl) (Nat.not_lt_zero _))
    | succ n ih =>
      intro l hl
      exact step l (fun m hm => ih m (by omega))
  exact fun l => key l.length l (Nat.le_refl _)

/-- Past the end of the vector the scan stops and changes nothing. -/
theorem scanFrom_oob (ready : Client → Bool) (res : Client → ReadResult)
    (cs : List Client) (i : Nat) (h : cs.length ≤ i) :
    scanFrom ready res cs i = (cs, []) := by
  rw [scanFrom, dif_neg (by omega)]

/-- The indexed scan of the source, started behind an already processed
segment p, agrees with the structural scan of the unprocessed segment. -/
theorem scanFrom_eq_go (ready : Client → Bool) (res : Client → ReadResult) :
    ∀ (l p : List Client),
      scanFrom ready res (p ++ l) p.length =
        (p ++ (scanGo ready res l).1, (scanGo ready res l).2) := by
  have key : ∀ (n : Nat) (l : List Client), l.length ≤ n → ∀ (p : List Client),
      scanFrom ready res (p ++ l) p.length =
        (p ++ (scanGo ready res l).1, (scanGo ready res l).2) := by
    intro n
    induction n with
    | zero =>
      intro l hl p
      have hnil : l = [] := List.length_eq_zero.mp (Nat.le_zero.mp hl)
      subst hnil
      rw [scanFrom_oob _ _ _ _ (by simp)]
      simp [scanGo]
    | succ n ih =>
      intro l hl p
      match l with
      | [] =>
        rw [scanFrom_oob _ _ _ _ (by simp)]
        simp [scanGo]
      | c :: rest =>
        have hlt : p.length < (p ++ c :: rest).length := by
          simp
        have hget : (p ++ c :: rest).get ⟨p.length, hlt⟩ = c :=
          get_append_mid p c rest hlt
        rw [scanFrom, dif_pos hlt, hget]
        by_cases hready : ready c = true
        · rw [if_pos hready]
          rcases hres : res c with _ | _ | pl
          · -- read error: erase, then the increment skips the shifted slot
            dsimp only
            rw [eraseIdx_append_mid]
            cases rest with
            | nil =>
              rw [scanFrom_oob _ _ _ _ (by simp)]
              simp [scanGo, removes, hready, hres]
            | cons d rest2 =>
              rw [show p ++ d :: rest2 = (p ++ [d]) ++ rest2 by simp,
                  show p.length + 1 = (p ++ [d]).length by simp,
                  ih rest2 (by simp at hl ⊢; omega)]
              simp [scanGo, removes, hready, hres]
          · -- peer closed: erase, then the increment skips the shifted slot
            dsimp only
            rw [eraseIdx_append_mid]
            cases rest with
            | nil =>
              rw [scanFrom_oob _ _ _ _ (by simp)]
              simp [scanGo, removes, hready, hres]
            | cons d rest2 =>
              rw [show p ++ d :: rest2 = (p ++ [d]) ++ rest2 by simp,
                  show p.length + 1 = (p ++ [d]).length by simp,
                  ih rest2 (by simp at hl ⊢; omega)]
              simp [scanGo, removes, hready, hres]
          · -- data: a quit payload erases, any other payload is prompted
            dsimp only
            by_cases hq : isQuit pl = true
            · rw [if_pos hq, eraseIdx_append_mid]
              cases rest with
              | nil =>
                rw [scanFrom_oob _ _ _ _ (by simp)]
                simp [scanGo, removes, hready, hres, hq]
              | cons d rest2 =>
                rw [show p ++ d :: rest2 = (p ++ [d]) ++ rest2 by simp,
                    show p.length + 1 = (p ++ [d]).length by simp,
                    ih rest2 (by simp at hl ⊢; omega)]
                simp [scanGo, removes, hready, hres, hq]
            · rw [if_neg hq,
                  show p ++ c :: rest = (p ++ [c]) ++ rest by simp,
                  show p.length + 1 = (p ++ [c]).length by simp,
                  ih rest (by simp at hl ⊢; omega),
                  scanGo_prompt ready res c rest hready
                    (by simp [removes, hres, hq])]
              simp
        · -- not in the ready set: skipped, stays in the vector
          have hrF : ready c = false := by
            simpa using hready
          rw [if_neg hready,
              show p ++ c :: rest = (p ++ [c]) ++ rest by simp,
              show p.length + 1 = (p ++ [c]).length by simp,
              ih rest (by simp at hl ⊢; omega),
              scanGo_keep ready res c rest hrF]
          simp
  exact fun l p => key l.length l (Nat.le_refl _) p

/-- The pass over the whole vector agrees with the structural scan. -/
theorem scanPass_eq_go (ready : Client → Bool) (res : Client → ReadResult)
    (cs : List Client) : scanPass ready res cs = scanGo ready res cs := by
  simpa [scanPass] using scanFrom_eq_go ready res cs []

/-- The vector after a pass is a sublist of the vector before it. -/
theorem scanGo_reg_sublist (ready : Client → Bool) (res : Client → ReadResult) :
    ∀ cs : List Client, List.Sublist (scanGo ready res cs).1 cs := by
  refine listStrongInd (fun cs ih => ?_)
  cases cs with
  | nil => simp [scanGo_nil]
  | cons c rest =>
    cases hrem : removes ready res c with
    | true =>
      cases rest with
      | nil =>
        rw [scanGo_remove_nil _ _ _ hrem]
        simp
      | cons d rest2 =>
        rw [scanGo_remove_cons _ _ _ _ _ hrem]
        exact ((ih rest2 (by simp only [List.length_cons]; omega)).cons₂ d).cons c
    | false =>
      cases hready : ready c with
      | true =>
        rw [scanGo_prompt _ _ _ _ hready hrem]
        exact (ih rest (by simp only [List.length_cons]; omega)).cons₂ c
      | false =>
        rw [scanGo_keep _ _ _ _ hready]
        exact (ih rest (by simp only [List.length_cons]; omega)).cons₂ c

/-- Every read() action of a pass belongs to a client of the vector. -/
theorem scanGo_read_mem (ready : Client → Bool) (res : Client → ReadResult)
    (j : Nat) :
    ∀ cs : List Client,
      Act.readC j ∈ (scanGo ready res cs).2 → ∃ c, c ∈ cs ∧ c.id = j := by
  refine listStrongInd (fun cs ih => ?_)
  cases cs with
  | nil =>
    intro hmem
    simp [scanGo_nil] at hmem
  | cons c rest =>
    cases hrem : removes ready res c with
    | true =>
      cases rest with
      | nil =>
        rw [scanGo_remove_nil _ _ _ hrem]
        intro hmem
        simp at hmem
        exact ⟨c, by simp, hmem.symm⟩
      | cons d rest2 =>
        rw [scanGo_remove_cons _ _ _ _ _ hrem]
        intro hmem
        simp at hmem
        rcases hmem with h | h
        · exact ⟨c, by simp, h.symm⟩
        · rcases ih rest2 (by simp only [List.length_cons]; omega) h with ⟨a, ha, hid⟩
          exact ⟨a, by simp [ha], hid⟩
    | false =>
      cases hready : ready c with
      | true =>
        rw [scanGo_prompt _ _ _ _ hready hrem]
        intro hmem
        simp at hmem
        rcases hmem with h | h
        · exact ⟨c, by simp, h.symm⟩
        · rcases ih rest (by simp only [List.length_cons]; omega) h with ⟨a, ha, hid⟩
          exact ⟨a, by simp [ha], hid⟩
      | false =>
        rw [scanGo_keep _ _ _ _ hready]
        intro hmem
        rcases ih rest (by simp only [List.length_cons]; omega) hmem with ⟨a, ha, hid⟩
        exact ⟨a, by simp [ha], hid⟩

/-- Every close() action of a pass belongs to a client of the vector
whose servicing erases it. -/
theorem scanGo_close_mem (ready : Client → Bool) (res : Client → ReadResult)
    (j : Nat) :
    ∀ cs : List Client,
      Act.closeC j ∈ (scanGo ready res cs).2 →
        ∃ c, c ∈ cs ∧ c.id = j ∧ removes ready res c = true := by
  refine listStrongInd (fun cs ih => ?_)
  cases cs with
  | nil =>
    intro hmem
    simp [scanGo_nil] at hmem
  | cons c rest =>
    cases hrem : removes ready res c with
    | true =>
      cases rest with
      | nil =>
        rw [scanGo_remove_nil _ _ _ hrem]
        intro hmem
        simp at hmem
        exact ⟨c, by simp, hmem.symm, hrem⟩
      | cons d rest2 =>
        rw [scanGo_remove_cons _ _ _ _ _ hrem]
        intro hmem
        simp at hmem
        rcases hmem with h | h
        · exact ⟨c, by simp, h.symm, hrem⟩
        · rcases ih rest2 (by simp only [List.length_cons]; omega) h with ⟨a, ha, hid, hrm⟩
          exact ⟨a, by simp [ha], hid, hrm⟩
    | false =>
      cases hready : ready c with
      | true =>
        rw [scanGo_prompt _ _ _ _ hready hrem]
        intro hmem
        simp at hmem
        rcases ih rest (by simp only [List.length_cons]; omega) hmem with ⟨a, ha, hid, hrm⟩
        exact ⟨a, by simp [ha], hid, hrm⟩
      | false =>
        rw [scanGo_keep _ _ _ _ hready]
        intro hmem
        rcases ih rest (by simp only [List.length_cons]; omega) hmem with ⟨a, ha, hid, hrm⟩
        exact ⟨a, by simp [ha], hid, hrm⟩

/-- Every payload written during a pass is the prompt. -/
theorem scanGo_send_payload (ready : Client → Bool) (res : Client → ReadResult) :
    ∀ cs : List Client, (scanGo ready res cs).2.all sendIsPrompt = true := by
  refine listStrongInd (fun cs ih => ?_)
  cases cs with
  | nil => simp [scanGo_nil]
  | cons c rest =>
    cases hrem : removes ready res c with
    | true =>
      cases rest with
      | nil =>
        rw [scanGo_remove_nil _ _ _ hrem]
        simp [sendIsPrompt]
      | cons d rest2 =>
        rw [scanGo_remove_cons _ _ _ _ _ hrem]
        simp only [List.all_cons, Bool.and_eq_true]
        exact ⟨rfl, rfl, ih rest2 (by simp only [List.length_cons]; omega)⟩
    | false =>
      cases hready : ready c with
      | true =>
        rw [scanGo_prompt _ _ _ _ hready hrem]
        simp only [List.all_cons, Bool.and_eq_true]
        exact ⟨rfl, by simp [sendIsPrompt], ih rest (by simp only [List.length_cons]; omega)⟩
      | false =>
        rw [scanGo_keep _ _ _ _ hready]
        exact ih rest (by simp only [List.length_cons]; omega)

/-- A client whose servicing does not erase it stays in the vector:
it is either skipped, not ready, or prompted, and in each case kept. -/
theorem scanGo_keep_mem (ready : Client → Bool) (res : Client → ReadResult)
    (c : Client) :
    ∀ cs : List Client, c ∈ cs → removes ready res c = false →
      c ∈ (scanGo ready res cs).1 := by
  refine listStrongInd (fun cs ih => ?_)
  cases cs with
  | nil =>
    intro hmem _
    simp at hmem
  | cons c0 rest =>
    intro hmem hrm
    cases hrem : removes ready res c0 with
    | true =>
      have hne : c ≠ c0 := by
        intro he
        simp [he, hrem] at hrm
      cases rest with
      | nil =>
        rcases List.mem_cons.mp hmem with h | h
        · exact absurd h hne
        · simp at h
      | cons d rest2 =>
        rw [scanGo_remove_cons _ _ _ _ _ hrem]
        rcases List.mem_cons.mp hmem with h | h
        · exact absurd h hne
        · rcases List.mem_cons.mp h with h2 | h2
          · simp [h2]
          · simp [ih rest2 (by simp only [List.length_cons]; omega) h2 hrm]
    | false =>
      cases hready : ready c0 with
      | true =>
        rw [scanGo_prompt _ _ _ _ hready hrem]
        rcases List.mem_cons.mp hmem with h | h
        · simp [h]
        · simp [ih rest (by simp only [List.length_cons]; omega) h hrm]
      | false =>
        rw [scanGo_keep _ _ _ _ hready]
        rcases List.mem_cons.mp hmem with h | h
        · simp [h]
        · simp [ih rest (by simp only [List.length_cons]; omega) h hrm]

theorem count_closeC_map (j : Nat) :
    ∀ X : List Client,
      (X.map (fun c => Act.closeC c.id)).count (Act.closeC j) =
        (X.map Client.id).count j := by
  intro X
  induction X with
  | nil => rfl
  | cons a X ih => simp [List.count_cons, ih]

/-- Closes performed by cleanup on a vector are exactly one per stored id. -/
theorem count_closeC_cleanup (j : Nat) (X : List Client) :
    (cleanup X).count (Act.closeC j) = (X.map Client.id).count j := by
  simp [cleanup, List.count_cons, List.count_append, count_closeC_map]

/-- Claim C1, counterexample: two ready clients; client 1 sends the
terminator and is erased at index 0, the loop increment then steps past
client 2, which was ready but is never read in this pass. -/
theorem removal_perturbs_scan_cex :
    scanPass allReady resQuitThenData [⟨1, 4⟩, ⟨2, 5⟩] =
      ([⟨2, 5⟩], [Act.readC 1, Act.closeC 1]) ∧
    allReady ⟨2, 5⟩ = true ∧
    Act.readC 2 ∉ (scanPass allReady resQuitThenData [⟨1, 4⟩, ⟨2, 5⟩]).2 := by
  rw [scanPass_eq_go]
  decide

/-- Claim C1, amended: when the scan erases Session a, the erased
Session is not revisited in the same pass (its socket is read exactly
once), but the ready Session b immediately after it in Registry order
is skipped: b is not read in this pass and stays in the Registry. -/
theorem removal_skips_successor
    (ready : Client → Bool) (res : Client → ReadResult)
    (a b : Client) (ys : List Client) (xs : List Client)
    (hnd : ((xs ++ a :: b :: ys).map Client.id).Nodup)
    (hxs : ∀ x ∈ xs, removes ready res x = false)
    (ha : removes ready res a = true)
    (_hb : ready b = true) :
    (scanPass ready res (xs ++ a :: b :: ys)).2.count (Act.readC a.id) = 1 ∧
    Act.readC b.id ∉ (scanPass ready res (xs ++ a :: b :: ys)).2 ∧
    b ∈ (scanPass ready res (xs ++ a :: b :: ys)).1 := by
  have key : ∀ xs2 : List Client,
      ((xs2 ++ a :: b :: ys).map Client.id).Nodup →
      (∀ x ∈ xs2, removes ready res x = false) →
      (scanGo ready res (xs2 ++ a :: b :: ys)).2.count (Act.readC a.id) = 1 ∧
      Act.readC b.id ∉ (scanGo ready res (xs2 ++ a :: b :: ys)).2 ∧
      b ∈ (scanGo ready res (xs2 ++ a :: b :: ys)).1 := by
    intro xs2
    induction xs2 with
    | nil =>
      intro hnd2 _
      rw [List.nil_append, scanGo_remove_cons _ _ _ _ _ ha]
      simp only [List.nil_append, List.map_cons, List.nodup_cons, List.mem_cons,
        List.mem_map] at hnd2
      have hab : a.id ≠ b.id := fun he => hnd2.1 (Or.inl he)
      have hay : Act.readC a.id ∉ (scanGo ready res ys).2 := by
        intro hm
        rcases scanGo_read_mem ready res a.id ys hm with ⟨cc, hcc, hid⟩
        exact hnd2.1 (Or.inr ⟨cc, hcc, hid⟩)
      have hby : Act.readC b.id ∉ (scanGo ready res ys).2 := by
        intro hm
        rcases scanGo_read_mem ready res b.id ys hm with ⟨cc, hcc, hid⟩
        exact hnd2.2.1 ⟨cc, hcc, hid⟩
      refine ⟨?_, ?_, by simp⟩
      · simp [List.count_cons, List.count_eq_zero.mpr hay]
      · intro hm
        rcases List.mem_cons.mp hm with h | h
        · injection h with h3
          exact hab h3.symm
        · rcases List.mem_cons.mp h with h2 | h2
          · exact Act.noConfusion h2
          · exact hby h2
    | cons x xs2 ih =>
      intro hnd2 hxs2
      have hrx : removes ready res x = false := hxs2 x (by simp)
      have hnd3 : ((xs2 ++ a :: b :: ys).map Client.id).Nodup := by
        simp only [List.cons_append, List.map_cons, List.nodup_cons] at hnd2
        exact hnd2.2
      have hxa : x.id ≠ a.id := by
        simp only [List.cons_append, List.map_cons, List.nodup_cons] at hnd2
        intro he
        exact hnd2.1 (he ▸ List.mem_map_of_mem Client.id (by simp))
      have hxb : x.id ≠ b.id := by
        simp only [List.cons_append, List.map_cons, List.nodup_cons] at hnd2
        intro he
        exact hnd2.1 (he ▸ List.mem_map_of_mem Client.id (by simp))
      rcases ih hnd3 (fun y hy => hxs2 y (by simp [hy])) with ⟨ih1, ih2, ih3⟩
      rw [List.cons_append]
      cases hready : ready x with
      | true =>
        rw [scanGo_prompt _ _ _ _ hready hrx]
        refine ⟨?_, ?_, by simp [ih3]⟩
        · simp [List.count_cons, ih1, Ne.symm hxa, hxa]
        · intro hm
          rcases List.mem_cons.mp hm with h | h
          · injection h with h3
            exact hxb h3.symm
          · rcases List.mem_cons.mp h with h2 | h2
            · exact Act.noConfusion h2
            · exact ih2 h2
      | false =>
        rw [scanGo_keep _ _ _ _ hready]
        exact ⟨ih1, ih2, by simp [ih3]⟩
  rw [scanPass_eq_go]
  exact key xs hnd hxs

/-- A client read with a zero-byte result is erased in the same pass
and its socket is closed exactly once during the pass. -/
theorem scanGo_closed_mem_removed (ready : Client → Bool)
    (res : Client → ReadResult) (c : Client)
    (hres : res c = ReadResult.closed) :
    ∀ cs : List Client, (cs.map Client.id).Nodup → c ∈ cs →
      Act.readC c.id ∈ (scanGo ready res cs).2 →
      c.id ∉ (scanGo ready res cs).1.map Client.id ∧
      (scanGo ready res cs).2.count (Act.closeC c.id) = 1 := by
  refine listStrongInd (fun cs ih => ?_)
  cases cs with
  | nil =>
    intro _ hc _
    simp at hc
  | cons c0 rest =>
    intro hnd hc hread
    simp only [List.map_cons, List.nodup_cons] at hnd
    cases hrem : removes ready res c0 with
    | true =>
      cases rest with
      | nil =>
        rw [scanGo_remove_nil _ _ _ hrem] at hread ⊢
        have hcc : c = c0 := by simpa using hc
        subst hcc
        exact ⟨by simp, by simp [List.count_cons]⟩
      | cons d rest2 =>
        rw [scanGo_remove_cons _ _ _ _ _ hrem] at hread ⊢
        simp only [List.map_cons, List.nodup_cons] at hnd
        by_cases hcc : c = c0
        · subst hcc
          have hcno : Act.closeC c.id ∉ (scanGo ready res rest2).2 := by
            intro hm
            rcases scanGo_close_mem ready res c.id rest2 hm with ⟨a, ha, hid, _⟩
            exact hnd.1 (by
              simp only [List.map_cons, List.mem_cons, List.mem_map]
              exact Or.inr ⟨a, ha, hid⟩)
          refine ⟨?_, ?_⟩
          · intro hm
            simp only [List.map_cons, List.mem_cons, List.mem_map] at hm
            rcases hm with h | h
            · exact hnd.1 (by simp [h])
            · rcases h with ⟨a, ha, hid⟩
              have hsub : List.Sublist (scanGo ready res rest2).1 rest2 :=
                scanGo_reg_sublist ready res rest2
              exact hnd.1 (by
                simp only [List.map_cons, List.mem_cons, List.mem_map]
                exact Or.inr ⟨a, hsub.mem ha, hid⟩)
          · simp [List.count_cons, List.count_eq_zero.mpr hcno]
        · have hcdr : c ∈ d :: rest2 := by
            rcases List.mem_cons.mp hc with h | h
            · exact absurd h hcc
            · exact h
          have hcid : c.id ∈ (d :: rest2).map Client.id :=
            List.mem_map_of_mem Client.id hcdr
          have hne0 : c.id ≠ c0.id := by
            intro he
            exact hnd.1 (he ▸ hcid)
          have hinA : Act.readC c.id ∈ (scanGo ready res rest2).2 := by
            rcases List.mem_cons.mp hread with h | h
            · injection h with h3
              exact absurd h3 hne0
            · rcases List.mem_cons.mp h with h2 | h2
              · exact Act.noConfusion h2
              · exact h2
          have hcr2 : c ∈ rest2 := by
            rcases List.mem_cons.mp hcdr with h | h
            · exfalso
              rcases scanGo_read_mem ready res c.id rest2 hinA with ⟨a, ha, hid⟩
              rw [h] at hid
              exact hnd.2.1 (hid ▸ List.mem_map_of_mem Client.id ha)
            · exact h
          rcases ih rest2 (by simp only [List.length_cons]; omega)
            hnd.2.2 hcr2 hinA with ⟨h1, h2⟩
          have hned : c.id ≠ d.id := by
            intro he
            exact hnd.2.1 (he ▸ List.mem_map_of_mem Client.id hcr2)
          refine ⟨?_, ?_⟩
          · intro hm
            simp only [List.map_cons, List.mem_cons] at hm
            rcases hm with h | h
            · exact hned h
            · exact h1 h
          · simp [List.count_cons, h2, Ne.symm hne0, hne0]
    | false =>
      cases hready : ready c0 with
      | true =>
        have hne : c ≠ c0 := by
          intro he
          subst he
          simp [removes, hready, hres] at hrem
        have hcr : c ∈ rest := by
          rcases List.mem_cons.mp hc with h | h
          · exact absurd h hne
          · exact h
        have hne0 : c.id ≠ c0.id := by
          intro he
          exact hnd.1 (he ▸ List.mem_map_of_mem Client.id hcr)
        rw [scanGo_prompt _ _ _ _ hready hrem] at hread ⊢
        have hinA : Act.readC c.id ∈ (scanGo ready res rest).2 := by
          rcases List.mem_cons.mp hread with h | h
          · injection h with h3
            exact absurd h3 hne0
          · rcases List.mem_cons.mp h with h2 | h2
            · exact Act.noConfusion h2
            · exact h2
        rcases ih rest (by simp only [List.length_cons]; omega)
          hnd.2 hcr hinA with ⟨h1, h2⟩
        refine ⟨?_, ?_⟩
        · intro hm
          simp only [List.map_cons, List.mem_cons] at hm
          rcases hm with h | h
          · exact hne0 h
          · exact h1 h
        · simp [List.count_cons, h2, Ne.symm hne0, hne0]
      | false =>
        rw [scanGo_keep _ _ _ _ hready] at hread ⊢
        have hcr : c ∈ rest := by
          rcases List.mem_cons.mp hc with h | h
          · exfalso
            rcases scanGo_read_mem ready res c.id rest hread with ⟨a, ha, hid⟩
            rw [h] at hid
            exact hnd.1 (hid ▸ List.mem_map_of_mem Client.id ha)
          · exact h
        have hne0 : c.id ≠ c0.id := by
          intro he
          exact hnd.1 (he ▸ List.mem_map_of_mem Client.id hcr)
        rcases ih rest (by simp only [List.length_cons]; omega)
          hnd.2 hcr hread with ⟨h1, h2⟩
        refine ⟨?_, h2⟩
        intro hm
        simp only [List.map_cons, List.mem_cons] at hm
        rcases hm with h | h
        · exact hne0 h
        · exact h1 h

/-- Claim C6: a Session whose read returns zero bytes in a pass is
erased from the Registry in that same pass, and its socket is closed
exactly once over the pass together with process cleanup; any Session
whose servicing does not erase it stays registered, is not closed in
the pass, and is closed exactly once at shutdown. -/
theorem zero_read_removed_closed_once
    (ready : Client → Bool) (res : Client → ReadResult)
    (cs : List Client) (c : Client)
    (hnd : (cs.map Client.id).Nodup)
    (hc : c ∈ cs)
    (hres : res c = ReadResult.closed)
    (hread : Act.readC c.id ∈ (scanPass ready res cs).2) :
    c.id ∉ (scanPass ready res cs).1.map Client.id ∧
    ((scanPass ready res cs).2 ++
        cleanup (scanPass ready res cs).1).count (Act.closeC c.id) = 1 ∧
    ∀ d ∈ cs, removes ready res d = false →
      d ∈ (scanPass ready res cs).1 ∧
      ((scanPass ready res cs).2 ++
          cleanup (scanPass ready res cs).1).count (Act.closeC d.id) = 1 := by
  rw [scanPass_eq_go] at hread ⊢
  obtain ⟨h1, h2⟩ := scanGo_closed_mem_removed ready res c hres cs hnd hc hread
  refine ⟨h1, ?_, ?_⟩
  · rw [List.count_append, h2, count_closeC_cleanup, List.count_eq_zero.mpr h1]
  · intro d hd hdrm
    have hdreg : d ∈ (scanGo ready res cs).1 :=
      scanGo_keep_mem ready res d cs hd hdrm
    have hnoclose : Act.closeC d.id ∉ (scanGo ready res cs).2 := by
      intro hm
      rcases scanGo_close_mem ready res d.id cs hm with ⟨a, ha, hid, hrm2⟩
      have had : a = d := List.inj_on_of_nodup_map hnd ha hd hid
      rw [had, hdrm] at hrm2
      exact Bool.false_ne_true hrm2
    have hregnd : ((scanGo ready res cs).1.map Client.id).Nodup :=
      List.Nodup.sublist ((scanGo_reg_sublist ready res cs).map Client.id) hnd
    refine ⟨hdreg, ?_⟩
    rw [List.count_append, List.count_eq_zero.mpr hnoclose, count_closeC_cleanup,
      List.count_eq_one_of_mem hregnd (List.mem_map_of_mem Client.id hdreg)]

/-- Claim C6, witness at a concrete input: one ready client whose read
returns zero bytes. -/
theorem zero_read_removed_closed_once_witness :
    (1 : Nat) ∉ (scanPass allReady resAllClosed [⟨1, 4⟩]).1.map Client.id ∧
    ((scanPass allReady resAllClosed [⟨1, 4⟩]).2 ++
        cleanup (scanPass allReady resAllClosed [⟨1, 4⟩]).1).count (Act.closeC 1) = 1 ∧
    ∀ d ∈ [(⟨1, 4⟩ : Client)], removes allReady resAllClosed d = false →
      d ∈ (scanPass allReady resAllClosed [⟨1, 4⟩]).1 ∧
      ((scanPass allReady resAllClosed [⟨1, 4⟩]).2 ++
          cleanup (scanPass allReady resAllClosed [⟨1, 4⟩]).1).count (Act.closeC d.id) = 1 :=
  zero_read_removed_closed_once allReady resAllClosed [⟨1, 4⟩] ⟨1, 4⟩
    (by decide) (by decide) rfl (by rw [scanPass_eq_go]; decide)

/-- Claim C1, witness for the amended theorem at a concrete input. -/
theorem removal_skips_successor_witness :
    (scanPass allReady resQuitThenData [⟨1, 4⟩, ⟨2, 5⟩]).2.count (Act.readC 1) = 1 ∧
    Act.readC 2 ∉ (scanPass allReady resQuitThenData [⟨1, 4⟩, ⟨2, 5⟩]).2 ∧
    (⟨2, 5⟩ : Client) ∈ (scanPass allReady resQuitThenData [⟨1, 4⟩, ⟨2, 5⟩]).1 :=
  removal_skips_successor allReady resQuitThenData ⟨1, 4⟩ ⟨2, 5⟩ [] []
    (by decide) (by simp) (by decide) (by decide)

/-- Claim C2: a payload that exactly fills the 100-byte buffer makes the
zero-terminator write land at index bufferSize, which is not a valid
index of the buffer; only shorter payloads stay in bounds. -/
theorem nul_write_out_of_bounds :
    nulWriteIndex bufferSize = bufferSize ∧
    ¬ (nulWriteIndex bufferSize < bufferSize) := by
  decide

/-- Claim C3, counterexample: an accepted connection is greeted and
appended with no receive of any acknowledgment payload between the
greeting and registration. -/
theorem handshake_no_ack_cex :
    (acceptStep 0 (AcceptResult.conn 4)).acts = [Act.send 1 helloBytes] ∧
    hasRecv (acceptStep 0 (AcceptResult.conn 4)).acts = false ∧
    (acceptStep 0 (AcceptResult.conn 4)).appended = [⟨1, 4⟩] := by
  decide

/-- Claim C3, amended: on acceptance the server writes the greeting and
appends the Session unconditionally; it performs no acknowledgment
receive, checks nothing, and has no Terminated transition during this
exchange. -/
theorem handshake_send_only (count : Nat) (r : AcceptResult) :
    (acceptStep count r).acts = [Act.send (count + 1) helloBytes] ∧
    hasRecv (acceptStep count r).acts = false ∧
    (acceptStep count r).appended = [⟨count + 1, fdOf r⟩] ∧
    (acceptStep count r).fatalExit = false := by
  cases r <;> simp [acceptStep, hasRecv]

theorem cString_append_nul (p : List Nat) : cString (p ++ [0]) = cString p := by
  induction p with
  | nil => rfl
  | cons a p ih =>
    by_cases ha : a = 0
    · subst ha
      simp [cString, List.takeWhile_cons]
    · simp only [cString, List.cons_append, List.takeWhile_cons] at ih ⊢
      simp [ha, ih]

/-- Claim C4, counterexample: the five-byte payload quit plus an
embedded zero byte is not byte-for-byte equal to the four terminator
bytes over the received count, yet the server takes the quit path. -/
theorem quit_embedded_nul_cex :
    isQuit [113, 117, 105, 116, 0] = true ∧
    ([113, 117, 105, 116, 0] : List Nat) ≠ quitBytes ∧
    ([113, 117, 105, 116, 0] : List Nat).length = 5 ∧
    scanPass allReady resNulQuit [⟨1, 4⟩] = ([], [Act.readC 1, Act.closeC 1]) := by
  refine ⟨by decide, by decide, by decide, ?_⟩
  rw [scanPass_eq_go]
  decide

/-- Claim C4, amended: a ready Session that delivers a payload takes the
quit path exactly when the payload bytes up to the first embedded zero
byte equal the terminator bytes; bytes after an embedded zero byte are
ignored by the strcmp comparison. -/
theorem quit_exact_cstring_match
    (ready : Client → Bool) (res : Client → ReadResult) (c : Client)
    (p : List Nat)
    (hready : ready c = true) (hres : res c = ReadResult.data p) :
    (scanPass ready res [c] = ([], [Act.readC c.id, Act.closeC c.id]) ↔
      cString p = quitBytes) ∧
    (scanPass ready res [c] =
        ([c], [Act.readC c.id, Act.send c.id promptBytes]) ↔
      cString p ≠ quitBytes) := by
  have hiff : isQuit p = true ↔ cString p = quitBytes := by
    simp [isQuit, cString_append_nul]
  rw [scanPass_eq_go]
  cases hq : isQuit p with
  | true =>
    have hcs : cString p = quitBytes := hiff.mp hq
    have hrem : removes ready res c = true := by
      simp [removes, hready, hres, hq]
    rw [scanGo_remove_nil _ _ _ hrem]
    refine ⟨⟨fun _ => hcs, fun _ => rfl⟩, ⟨fun he => ?_, fun hne => absurd hcs hne⟩⟩
    exfalso
    simp at he
  | false =>
    have hcs : cString p ≠ quitBytes := by
      intro hh
      rw [← hiff, hq] at hh
      exact Bool.false_ne_true hh
    have hrem : removes ready res c = false := by
      simp [removes, hready, hres, hq]
    rw [scanGo_prompt _ _ _ _ hready hrem, scanGo_nil]
    refine ⟨⟨fun he => ?_, fun hcs2 => absurd hcs2 hcs⟩, ⟨fun _ => hcs, fun _ => rfl⟩⟩
    exfalso
    simp at he

/-- Claim C4, witness for the amended theorem at a concrete input. -/
theorem quit_exact_cstring_match_witness :
    (scanPass allReady resNulQuit [⟨1, 4⟩] = ([], [Act.readC 1, Act.closeC 1]) ↔
      cString [113, 117, 105, 116, 0] = quitBytes) ∧
    (scanPass allReady resNulQuit [⟨1, 4⟩] =
        ([⟨1, 4⟩], [Act.readC 1, Act.send 1 promptBytes]) ↔
      cString [113, 117, 105, 116, 0] ≠ quitBytes) :=
  quit_exact_cstring_match allReady resNulQuit ⟨1, 4⟩ [113, 117, 105, 116, 0] rfl rfl

/-- Claim C5, counterexample: an accept failure is not fatal in either
mode, and a Session holding the error value -1 as its handle is
appended to the Registry and greeted. -/
theorem accept_error_not_fatal_cex :
    (acceptStep 0 AcceptResult.err).fatalExit = false ∧
    (acceptStep 0 AcceptResult.err).appended = [⟨1, -1⟩] ∧
    (acceptStep 0 AcceptResult.err).acts = [Act.send 1 helloBytes] := by
  decide

/-- Claim C5, amended: the accept return value is never checked: in both
the blocking and the multiplexed mode the process does not exit, the
greeting is written, and one Session is appended whose stored handle is
exactly the accept return value, -1 included. -/
theorem accept_unchecked (count : Nat) (r : AcceptResult) :
    (acceptStep count r).fatalExit = false ∧
    (acceptStep count r).appended.map Client.socket = [fdOf r] ∧
    (acceptStep count r).appended.map Client.id = [count + 1] ∧
    (acceptStep count r).acts = [Act.send (count + 1) helloBytes] := by
  cases r <;> simp [acceptStep, fdOf]

theorem sessionActs_prompted (i : Nat) :
    ∀ rs : List ReadResult,
      readsPromptedAux i (some (Act.send i promptBytes)) (sessionActs i rs) = true := by
  intro rs
  induction rs with
  | nil => rfl
  | cons r rs ih =>
    cases r with
    | err => simp [sessionActs, readsPromptedAux]
    | closed => simp [sessionActs, readsPromptedAux]
    | data p =>
      by_cases hq : isQuit p = true
      · simp [sessionActs, readsPromptedAux, hq]
      · simp [sessionActs, readsPromptedAux, hq, ih]

/-- Claim C7, counterexample: the first command read of a Session is
immediately preceded by the greeting, not by the prompt: the prompt
only follows a successfully received non-terminator payload. -/
theorem first_read_not_prompted_cex :
    sessionTrace 1 [ReadResult.data [108, 115]] =
      [Act.send 1 helloBytes, Act.readC 1, Act.send 1 promptBytes] ∧
    readsPrompted 1 (sessionTrace 1 [ReadResult.data [108, 115]]) = false ∧
    helloBytes ≠ promptBytes := by
  decide

/-- Claim C7, amended: after a non-terminator payload the Session stays
in the command loop and exactly one prompt is written before its next
read; every read after the first is immediately preceded by the prompt,
while the first read is immediately preceded by the greeting. -/
theorem prompt_between_reads (i : Nat) (p : List Nat) (rs : List ReadResult)
    (hq : isQuit p = false) :
    sessionTrace i (ReadResult.data p :: rs) =
      Act.send i helloBytes :: Act.readC i ::
        Act.send i promptBytes :: sessionActs i rs ∧
    readsPromptedAux i (some (Act.send i promptBytes)) (sessionActs i rs) = true := by
  refine ⟨?_, sessionActs_prompted i rs⟩
  simp [sessionTrace, sessionActs, hq]

/-- Claim C7, witness for the amended theorem at a concrete input. -/
theorem prompt_between_reads_witness :
    sessionTrace 1 [ReadResult.data [108, 115]] =
      Act.send 1 helloBytes :: Act.readC 1 ::
        Act.send 1 promptBytes :: sessionActs 1 [] ∧
    readsPromptedAux 1 (some (Act.send 1 promptBytes)) (sessionActs 1 []) = true :=
  prompt_between_reads 1 [108, 115] [] (by decide)

theorem le_maxFD_foldl (X : List Client) :
    ∀ init : Int,
      init ≤ X.foldl (fun m c => if c.socket > m then c.socket else m) init := by
  induction X with
  | nil =>
    intro init
    simp
  | cons a X ih =>
    intro init
    simp only [List.foldl_cons]
    have h1 : init ≤ (if a.socket > init then a.socket else init) := by
      split <;> omega
    exact le_trans h1 (ih _)

theorem mem_le_maxFD_foldl (X : List Client) :
    ∀ (init : Int) (c : Client), c ∈ X →
      c.socket ≤ X.foldl (fun m c => if c.socket > m then c.socket else m) init := by
  induction X with
  | nil =>
    intro init c hc
    simp at hc
  | cons a X ih =>
    intro init c hc
    simp only [List.foldl_cons]
    rcases List.mem_cons.mp hc with h | h
    · subst h
      refine le_trans ?_ (le_maxFD_foldl X _)
      split <;> omega
    · exact ih _ c h

/-- Claim C8: with a non-empty Registry and the run-time descriptor
order of this program (the listening socket is created first, so its
descriptor is below every client descriptor), the descriptors that
select can observe and report are exactly the listening socket plus
every client in the vector, the read set handed to select is rebuilt
from the current vector, and the listening socket is observable. -/
theorem poll_candidates_exact (serverFD : Int) (clients : List Client)
    (hne : clients ≠ [])
    (hlow : ∀ c ∈ clients, serverFD < c.socket) :
    selectObserves serverFD clients serverFD = true ∧
    (∀ fd : Int, selectObserves serverFD clients fd = true ↔
      (fd = serverFD ∨ fd ∈ clients.map Client.socket)) ∧
    prepareFDReadSet serverFD clients =
      (serverFD :: clients.map Client.socket, maxFDcalc clients) := by
  obtain ⟨c0, hc0⟩ : ∃ c, c ∈ clients := by
    cases clients with
    | nil => exact absurd rfl hne
    | cons a l => exact ⟨a, by simp⟩
  have hserv : serverFD < maxFDcalc clients + 1 := by
    have h1 := mem_le_maxFD_foldl clients 0 c0 hc0
    have h2 := hlow c0 hc0
    simp only [maxFDcalc]
    omega
  have hcli : ∀ c ∈ clients, c.socket < maxFDcalc clients + 1 := by
    intro c hc
    have h1 := mem_le_maxFD_foldl clients 0 c hc
    simp only [maxFDcalc]
    omega
  refine ⟨?_, ?_, rfl⟩
  · simp [selectObserves, readsetOf, hserv]
  · intro fd
    constructor
    · intro h
      simp only [selectObserves, readsetOf, Bool.and_eq_true] at h
      have hmem : fd ∈ serverFD :: clients.map Client.socket := by
        simpa using h.1
      simpa using hmem
    · intro h
      rcases h with h | h
      · subst h
        simp [selectObserves, readsetOf, hserv]
      · rcases List.mem_map.mp h with ⟨c, hc, hfd⟩
        subst hfd
        have hb := hcli c hc
        simp [selectObserves, readsetOf, hb, List.mem_map]
        exact Or.inr ⟨c, hc, rfl⟩

/-- Claim C8, witness at a concrete input: listening descriptor 3,
one client with descriptor 4. -/
theorem poll_candidates_exact_witness :
    selectObserves 3 [⟨1, 4⟩] 3 = true ∧
    (∀ fd : Int, selectObserves 3 [⟨1, 4⟩] fd = true ↔
      (fd = 3 ∨ fd ∈ ([⟨1, 4⟩] : List Client).map Client.socket)) ∧
    prepareFDReadSet 3 [⟨1, 4⟩] =
      (3 :: ([⟨1, 4⟩] : List Client).map Client.socket, maxFDcalc [⟨1, 4⟩]) :=
  poll_candidates_exact 3 [⟨1, 4⟩] (by decide) (by decide)

/-- Claim C9, counterexample: with one live Session, cleanup closes the
server socket first and the Session socket after it, so the claimed
order (Sessions first, then the Listening Endpoint) does not hold. -/
theorem cleanup_order_cex :
    cleanup [⟨1, 4⟩] = [Act.closeServer, Act.closeC 1, Act.unlinkFile] ∧
    allBefore isCloseClient isServerClose (cleanup [⟨1, 4⟩]) = false := by
  decide

theorem no_server_in_close_tail (X : List Client) :
    (X.map (fun c => Act.closeC c.id) ++ [Act.unlinkFile]).all
      (fun b => !(isServerClose b)) = true := by
  induction X with
  | nil => decide
  | cons a X ih => simp [isServerClose, ih]

theorem allBefore_server_clients (X : List Client) :
    allBefore isServerClose isCloseClient
      (X.map (fun c => Act.closeC c.id) ++ [Act.unlinkFile]) = true := by
  induction X with
  | nil => decide
  | cons a X ih =>
    simp only [List.map_cons, List.cons_append, allBefore, isCloseClient]
    simp [no_server_in_close_tail X, ih]

theorem allBefore_clients_unlink_tail (X : List Client) :
    allBefore isCloseClient isUnlink
      (X.map (fun c => Act.closeC c.id) ++ [Act.unlinkFile]) = true := by
  induction X with
  | nil => decide
  | cons a X ih =>
    simp only [List.map_cons, List.cons_append, allBefore, isUnlink]
    simpa using ih

theorem count_closeServer_map (X : List Client) :
    (X.map (fun c => Act.closeC c.id)).count Act.closeServer = 0 := by
  induction X with
  | nil => rfl
  | cons a X ih => simp [List.count_cons, ih]

theorem count_unlink_map (X : List Client) :
    (X.map (fun c => Act.closeC c.id)).count Act.unlinkFile = 0 := by
  induction X with
  | nil => rfl
  | cons a X ih => simp [List.count_cons, ih]

/-- Claim C9, amended: every shutdown path (signal-driven shutdown runs
the same atexit cleanup as normal exit) performs one cleanup sequence
that closes the Listening Endpoint first, then every live Session
exactly once, then releases the bound socket file, each exactly once:
the endpoint close precedes the Session closes, which precede the
unlink. -/
theorem cleanup_server_first (cs : List Client)
    (hnd : (cs.map Client.id).Nodup) :
    cleanup cs =
      Act.closeServer :: (cs.map (fun c => Act.closeC c.id) ++ [Act.unlinkFile]) ∧
    signalShutdown cs = cleanup cs ∧
    allBefore isServerClose isCloseClient (cleanup cs) = true ∧
    allBefore isCloseClient isUnlink (cleanup cs) = true ∧
    (cleanup cs).count Act.closeServer = 1 ∧
    (cleanup cs).count Act.unlinkFile = 1 ∧
    ∀ c ∈ cs, (cleanup cs).count (Act.closeC c.id) = 1 := by
  refine ⟨rfl, rfl, ?_, ?_, ?_, ?_, ?_⟩
  · simp only [cleanup, allBefore, isCloseClient]
    exact allBefore_server_clients cs
  · simp only [cleanup, allBefore, isUnlink]
    exact allBefore_clients_unlink_tail cs
  · simp [cleanup, List.count_cons, List.count_append, count_closeServer_map]
  · simp [cleanup, List.count_cons, List.count_append, count_unlink_map]
  · intro c hc
    have hone : (cs.map Client.id).count c.id = 1 :=
      List.count_eq_one_of_mem hnd (List.mem_map_of_mem Client.id hc)
    simp [cleanup, List.count_cons, List.count_append, count_closeC_map, hone]

/-- Claim C9, witness for the amended theorem at a concrete input. -/
theorem cleanup_server_first_witness :
    cleanup [⟨1, 4⟩, ⟨2, 5⟩] =
      Act.closeServer ::
        (([⟨1, 4⟩, ⟨2, 5⟩] : List Client).map (fun c => Act.closeC c.id) ++
          [Act.unlinkFile]) ∧
    signalShutdown [⟨1, 4⟩, ⟨2, 5⟩] = cleanup [⟨1, 4⟩, ⟨2, 5⟩] ∧
    allBefore isServerClose isCloseClient (cleanup [⟨1, 4⟩, ⟨2, 5⟩]) = true ∧
    allBefore isCloseClient isUnlink (cleanup [⟨1, 4⟩, ⟨2, 5⟩]) = true ∧
    (cleanup [⟨1, 4⟩, ⟨2, 5⟩]).count Act.closeServer = 1 ∧
    (cleanup [⟨1, 4⟩, ⟨2, 5⟩]).count Act.unlinkFile = 1 ∧
    ∀ c ∈ ([⟨1, 4⟩, ⟨2, 5⟩] : List Client),
      (cleanup [⟨1, 4⟩, ⟨2, 5⟩]).count (Act.closeC c.id) = 1 :=
  cleanup_server_first [⟨1, 4⟩, ⟨2, 5⟩] (by decide)

/-- Claim C10: both fixed payloads are written with their trailing zero
byte on the wire (6 bytes for the greeting, 9 bytes for the prompt),
and every write the server performs carries one of these two payloads
in full, on every send and for every Session. -/
theorem fixed_payloads_include_nul :
    helloBytes.length = 6 ∧ promptBytes.length = 9 ∧
    helloBytes = [72, 69, 76, 76, 79] ++ [0] ∧
    promptBytes = [69, 78, 84, 69, 82, 67, 77, 68] ++ [0] ∧
    (∀ (ready : Client → Bool) (res : Client → ReadResult) (cs : List Client),
      (scanPass ready res cs).2.all sendIsPrompt = true) ∧
    (∀ (count : Nat) (r : AcceptResult),
      (acceptStep count r).acts = [Act.send (count + 1) helloBytes]) ∧
    (∀ (i : Nat) (rs : List ReadResult),
      (sessionTrace i rs).all sendIsFixed = true) := by
  refine ⟨rfl, rfl, rfl, rfl, ?_, ?_, ?_⟩
  · intro ready res cs
    rw [scanPass_eq_go]
    exact scanGo_send_payload ready res cs
  · intro count r
    rfl
  · intro i rs
    have hacts : ∀ rs2 : List ReadResult,
        (sessionActs i rs2).all sendIsFixed = true := by
      intro rs2
      induction rs2 with
      | nil => rfl
      | cons r rs2 ih =>
        cases r with
        | err => simp [sessionActs, sendIsFixed]
        | closed => simp [sessionActs, sendIsFixed]
        | data p =>
          by_cases hq : isQuit p = true
          · simp [sessionActs, hq, sendIsFixed]
          · simp [sessionActs, hq, sendIsFixed, ih]
    simp [sessionTrace, sendIsFixed, hacts rs]

end MuServer
